import Mathlib

/-!
Shallow embedding of the `filshare_rust` storage engine (`src/storage.rs`,
`src/models.rs`) and proofs of the specified properties.

The database tables are modelled as Lean lists of rows; the blob store is an
association list from on-disk paths to byte sequences (bytes as `Nat`).
Fallible operations return `Except String`, mirroring the `Result<_, Box<dyn
Error>>` signatures of the Rust code; the potentially diverging ancestor walk
is modelled with explicit fuel, with `none` as the divergence outcome.
-/

namespace Filshare

/-- Row of the `files` table (`src/models.rs`, `FileMetadata`). -/
structure FileMetadata where
  id : String
  filename : String
  original_filename : String
  file_size : Int
  mime_type : Option String
  storage_path : String
  uploaded_at : String
  description : Option String
  parent_directory_id : Option String
deriving DecidableEq, Repr

/-- Row of the `directories` table (`src/models.rs`, `Directory`). -/
structure Directory where
  id : String
  name : String
  parent_id : Option String
  created_at : String
  updated_at : String
deriving DecidableEq, Repr

/-- The blob store: a map from on-disk path to byte content, one file per
path, modelled as an association list. -/
abbrev Blobs := List (String × List Nat)

/-- Reading the blob at a path (the content of the on-disk file, if any). -/
def getBlob (bs : Blobs) (p : String) : Option (List Nat) :=
  (bs.find? (fun b => b.1 == p)).map (fun b => b.2)

/-- `Path::exists` for a blob path. -/
def hasBlob (bs : Blobs) (p : String) : Bool :=
  (bs.find? (fun b => b.1 == p)).isSome

/-- `File::create` followed by `write_all`: creates or truncates the file at
`p` and writes `content`. -/
def setBlob (bs : Blobs) (p : String) (content : List Nat) : Blobs :=
  (p, content) :: bs.filter (fun b => !(b.1 == p))

/-- `fs::remove_file`. -/
def removeBlob (bs : Blobs) (p : String) : Blobs :=
  bs.filter (fun b => !(b.1 == p))

/-! ### Rust path semantics

`save_file` computes `Path::new(filename).extension()`. We model
`Path::file_name` and `Path::extension` for Unix paths on `List Char`.
-/

/-- Split a character list at every occurrence of `sep` (like
`String.splitOn` for a single separator). -/
def splitOnChar (sep : Char) : List Char → List (List Char)
  | [] => [[]]
  | c :: cs =>
    let r := splitOnChar sep cs
    if c = sep then [] :: r
    else
      match r with
      | [] => [[c]]
      | h :: t => (c :: h) :: t

/-- `Path::file_name`: the last normal component of the path; `none` for an
empty path, a root path, or a path whose last component is `..`. Empty and
`.` components are skipped, as in Rust path component normalization. -/
def fileNameOf (s : String) : Option (List Char) :=
  let comps := (splitOnChar '/' s.toList).filter (fun p => !(p == []) && !(p == ['.']))
  match comps.getLast? with
  | none => none
  | some l => if l = ['.', '.'] then none else some l

/-- The part of `l` after its last `.`, or `none` when `l` has no `.`.
Helper for `Path::extension`. -/
def extAfterLastDot : List Char → Option (List Char)
  | [] => none
  | c :: cs =>
    match extAfterLastDot cs with
    | some e => some e
    | none => if c = '.' then some cs else none

/-- `Path::extension` applied to a file name: `none` when the name has no
dot or when its only dot is the leading character (a hidden file like
`.bashrc` has no extension); otherwise the part after the last dot,
case-preserved. -/
def rustExtensionOfName (name : List Char) : Option (List Char) :=
  match name with
  | [] => none
  | _ :: rest =>
    match extAfterLastDot rest with
    | some e => some e
    | none => none

/-- `Path::new(s).extension().and_then(to_str).unwrap_or("")` as in
`save_file` (`src/storage.rs` lines 36-39). -/
def pathExtension (s : String) : String :=
  match fileNameOf s with
  | none => ""
  | some n =>
    match rustExtensionOfName n with
    | none => ""
    | some e => String.mk e

/-- `PathBuf::join`: an absolute right operand replaces the base, otherwise
the two are joined with a separator unless one is already present. -/
def pathJoin (base name : String) : String :=
  if name.toList.head? = some '/' then name
  else if base = "" then name
  else if base.toList.getLast? = some '/' then base ++ name
  else base ++ "/" ++ name

/-! ### File operations (`src/storage.rs`) -/

/-- `FileStorage::get_file_metadata`: `SELECT ... FROM files WHERE id = ?`,
`fetch_optional` — the first matching row. -/
def get_file_metadata (files : List FileMetadata) (file_id : String) :
    Option FileMetadata :=
  files.find? (fun f => f.id == file_id)

/-- The `stored_filename` computed by `save_file` (`src/storage.rs` lines
41-45): the id alone when the extension is empty, else id, dot,
extension. -/
def storedFilenameOf (file_id filename : String) : String :=
  if pathExtension filename = "" then file_id
  else file_id ++ "." ++ pathExtension filename

/-- The `FileMetadata` record built by `save_file` (`src/storage.rs` lines
58-68). -/
def savedMetadata (upload_dir file_id now filename : String) (content : List Nat)
    (mime_type : Option String) (description : Option String)
    (parent_directory_id : Option String) : FileMetadata :=
  { id := file_id
    filename := storedFilenameOf file_id filename
    original_filename := filename
    file_size := (content.length : Int)
    mime_type := mime_type
    storage_path := pathJoin upload_dir (storedFilenameOf file_id filename)
    uploaded_at := now
    description := description
    parent_directory_id := parent_directory_id }

/-- `FileStorage::save_file` (`src/storage.rs` lines 27-90). The fresh UUID
and the timestamp are passed in as `file_id` and `now`. The blob is written
first; the insert then fails only on a primary-key collision (`files.id` is
the primary key), in which case the already written blob remains — hence the
blob store is returned in both outcomes. -/
def save_file (files : List FileMetadata) (blobs : Blobs) (upload_dir : String)
    (file_id : String) (now : String) (filename : String) (content : List Nat)
    (mime_type : Option String) (description : Option String)
    (parent_directory_id : Option String) :
    Blobs × Except String (List FileMetadata × FileMetadata) :=
  let metadata := savedMetadata upload_dir file_id now filename content
    mime_type description parent_directory_id
  let blobs' := setBlob blobs metadata.storage_path content
  if files.any (fun f => f.id == file_id) then
    (blobs', Except.error "UNIQUE constraint failed: files.id")
  else
    (blobs', Except.ok (files ++ [metadata], metadata))

/-- Insertion step for `ORDER BY uploaded_at DESC`. -/
def insertByUploadedDesc (x : FileMetadata) : List FileMetadata → List FileMetadata
  | [] => [x]
  | y :: ys =>
    if y.uploaded_at ≤ x.uploaded_at then x :: y :: ys
    else y :: insertByUploadedDesc x ys

/-- Sort a list of file rows by `uploaded_at` descending. -/
def sortByUploadedDesc : List FileMetadata → List FileMetadata
  | [] => []
  | x :: xs => insertByUploadedDesc x (sortByUploadedDesc xs)

/-- `FileStorage::list_files`: rows whose `parent_directory_id` equals the
argument (`IS NULL` when absent), ordered by `uploaded_at` descending. -/
def list_files (files : List FileMetadata) (parent_directory_id : Option String) :
    List FileMetadata :=
  sortByUploadedDesc (files.filter (fun f => f.parent_directory_id == parent_directory_id))

/-- `FileStorage::delete_file` (`src/storage.rs` lines 125-150): look up the
row; if present, remove the blob only when one exists at its
`storage_path`, then delete the rows with this id and report whether any row
was removed; otherwise report `false` without touching anything. -/
def delete_file (files : List FileMetadata) (blobs : Blobs) (file_id : String) :
    List FileMetadata × Blobs × Bool :=
  match files.find? (fun f => f.id == file_id) with
  | some meta =>
    let blobs' := if hasBlob blobs meta.storage_path then removeBlob blobs meta.storage_path else blobs
    let affected := files.countP (fun f => f.id == file_id)
    let files' := files.filter (fun f => !(f.id == file_id))
    (files', blobs', decide (0 < affected))
  | none => (files, blobs, false)

/-- `FileStorage::move_file` (`src/storage.rs` lines 264-284): update the
`parent_directory_id` of the rows with this id; if no row was affected
return `none`, else re-fetch and return the row. -/
def move_file (files : List FileMetadata) (file_id : String)
    (parent_directory_id : Option String) :
    List FileMetadata × Option FileMetadata :=
  let affected := files.countP (fun f => f.id == file_id)
  let files' := files.map (fun f =>
    if f.id == file_id then { f with parent_directory_id := parent_directory_id } else f)
  if affected = 0 then (files, none)
  else (files', files'.find? (fun f => f.id == file_id))

/-- `FileStorage::get_directory_stats` (`src/storage.rs` lines 248-262):
`SELECT COUNT(*), SUM(file_size) WHERE parent_directory_id = ?`. `COUNT` is
the number of matching rows; `SUM` is `NULL` (here `none`) when there are no
rows. The code maps a `NULL` sum to `0`. -/
def get_directory_stats (files : List FileMetadata) (dir_id : String) : Int × Int :=
  let matching := files.filter (fun f => f.parent_directory_id == some dir_id)
  let count : Int := (matching.length : Int)
  let total : Option Int :=
    match matching with
    | [] => none
    | _ => some ((matching.map (fun f => f.file_size)).sum)
  match total with
  | some s => (count, s)
  | none => (count, 0)

/-! ### Directory operations (`src/storage.rs`) -/

/-- `FileStorage::get_directory`: `SELECT ... FROM directories WHERE id = ?`,
`fetch_optional` — the first matching row. -/
def getDirectory (dirs : List Directory) (dir_id : String) : Option Directory :=
  dirs.find? (fun d => d.id == dir_id)

/-- `FileStorage::create_directory` (`src/storage.rs` lines 158-190). The
fresh UUID and the timestamp are passed in as `dir_id` and `now`; the insert
fails only on a primary-key collision. -/
def create_directory (dirs : List Directory) (dir_id : String) (now : String)
    (name : String) (parent_id : Option String) :
    Except String (List Directory × Directory) :=
  let directory : Directory :=
    { id := dir_id, name := name, parent_id := parent_id
      created_at := now, updated_at := now }
  if dirs.any (fun d => d.id == dir_id) then
    Except.error "UNIQUE constraint failed: directories.id"
  else
    Except.ok (dirs ++ [directory], directory)

/-- One upward step of the parent relation: the `parent_id` of the row found
for `i`, when the row exists and its parent is present. -/
def parentOf (dirs : List Directory) (i : String) : Option String :=
  (getDirectory dirs i).bind (fun d => d.parent_id)

/-- `n` upward steps of the parent relation, `none` as soon as a lookup or a
parent is missing. -/
def parentIterN (dirs : List Directory) : Nat → String → Option String
  | 0, i => some i
  | n + 1, i => (parentOf dirs i).bind (parentIterN dirs n)

/-- The parent relation is acyclic: no directory id is reachable from itself
by one or more upward steps. This is the spec invariant "forest of trees
rooted at directories with `parent_id` absent". -/
def Acyclic (dirs : List Directory) : Prop :=
  ∀ i n, parentIterN dirs (n + 1) i ≠ some i

/-- `FileStorage::is_ancestor_of` (`src/storage.rs` lines 321-337) with
explicit fuel: walk up from `cur`, returning `true` when a parent equals
`anc`, `false` when a lookup fails or a root is reached. The Rust loop is
unbounded; `none` records that it has not returned within `fuel`
iterations. -/
def isAncestorOfFuel (dirs : List Directory) (anc : String) (cur : String) :
    Nat → Option Bool
  | 0 => none
  | fuel + 1 =>
    match getDirectory dirs cur with
    | none => some false
    | some d =>
      match d.parent_id with
      | none => some false
      | some pid =>
        if pid = anc then some true
        else isAncestorOfFuel dirs anc pid fuel

/-- The guard block of `move_directory` (`src/storage.rs` lines 291-299):
`some (some e)` is rejection with error message `e`, `some none` is guard
passed, `none` is divergence of the unbounded ancestor walk — a walk that
has not returned after `dirs.length + 1` lookups has revisited a directory
and loops forever in the Rust code. -/
def moveCheck (dirs : List Directory) (dir_id : String) (parent_id : Option String) :
    Option (Option String) :=
  match parent_id with
  | none => some none
  | some target =>
    if target = dir_id then some (some "Cannot move a directory into itself")
    else
      match isAncestorOfFuel dirs dir_id target (dirs.length + 1) with
      | none => none
      | some true => some (some "Cannot move a directory into one of its own subdirectories")
      | some false => some none

/-- The `UPDATE directories SET parent_id = ?, updated_at = ? WHERE id = ?`
of `move_directory`. -/
def moveUpdate (dirs : List Directory) (dir_id : String)
    (parent_id : Option String) (now : String) : List Directory :=
  dirs.map (fun d =>
    if d.id == dir_id then { d with parent_id := parent_id, updated_at := now } else d)

/-- `FileStorage::move_directory` (`src/storage.rs` lines 286-318): reject a
self-move and a move under a descendant, then update `parent_id` and
`updated_at` of the rows with this id; report `none` in the result when no
row was affected, else re-fetch. The outer `none` is the divergence outcome
of the guard walk. The returned list is the resulting `directories` table
(unchanged on rejection); the `files` table is never touched by this
operation. -/
def move_directory (dirs : List Directory) (dir_id : String)
    (parent_id : Option String) (now : String) :
    Option (List Directory × Except String (Option Directory)) :=
  match moveCheck dirs dir_id parent_id with
  | none => none
  | some (some e) => some (dirs, Except.error e)
  | some none =>
    if dirs.countP (fun d => d.id == dir_id) = 0 then some (dirs, Except.ok none)
    else
      some (moveUpdate dirs dir_id parent_id now,
        Except.ok (getDirectory (moveUpdate dirs dir_id parent_id now) dir_id))

/-- Bounded reachability along the parent relation (`i` reaches `t` within
`fuel` upward steps, including zero steps). Used to model the cascade extent
of `delete_directory`. -/
def reachesWithin (dirs : List Directory) : Nat → String → String → Bool
  | 0, i, t => i == t
  | fuel + 1, i, t =>
    i == t ||
      match parentOf dirs i with
      | none => false
      | some p => reachesWithin dirs fuel p t

/-- `FileStorage::delete_directory` (`src/storage.rs` lines 222-246),
restricted to its effect on the `directories` table. Modelled from the spec:
the migration files are not in `src/`, and per the spec the
`directories.parent_id` foreign key is declared `ON DELETE CASCADE`, so the
delete removes the directory row and every descendant row. -/
def delete_directory_dirs (dirs : List Directory) (dir_id : String) :
    List Directory × Bool :=
  match getDirectory dirs dir_id with
  | none => (dirs, false)
  | some _ =>
    (dirs.filter (fun d => !(reachesWithin dirs dirs.length d.id dir_id)), true)

/-! ### Core transition relation on the `directories` table

One step for each core operation that can touch the `directories` table.
File operations (`save_file`, `move_file`, `delete_file`, `list_files`,
`get_directory_stats`, and `bulk_delete`'s file half) operate on `files` and
the blob store only — their models above do not take the directory table —
so they leave the parent relation unchanged. -/
inductive DirStep : List Directory → List Directory → Prop where
  /-- `create_directory` with a fresh UUID. Freshness of a random 128-bit id
  is modelled as: no existing row has this id, no stored `parent_id` equals
  it, and the caller-supplied parent is not it (the id is generated inside
  the call, so no input can mention it). -/
  | create (dirs : List Directory) (dir_id now name : String)
      (parent_id : Option String) (dirs' : List Directory) (d : Directory)
      (hfresh : ∀ e ∈ dirs, e.id ≠ dir_id ∧ e.parent_id ≠ some dir_id)
      (hparent : parent_id ≠ some dir_id)
      (hop : create_directory dirs dir_id now name parent_id = Except.ok (dirs', d)) :
      DirStep dirs dirs'
  /-- `move_directory`, any returning outcome (success or error). -/
  | move (dirs : List Directory) (dir_id : String) (parent_id : Option String)
      (now : String) (dirs' : List Directory)
      (res : Except String (Option Directory))
      (hop : move_directory dirs dir_id parent_id now = some (dirs', res)) :
      DirStep dirs dirs'
  /-- `delete_directory`, any outcome. -/
  | delete (dirs : List Directory) (dir_id : String) (dirs' : List Directory) (b : Bool)
      (hop : delete_directory_dirs dirs dir_id = (dirs', b)) :
      DirStep dirs dirs'

/-! ### Spec-side derivations for the filename claim -/

/-- Extension of a path as the (amended) spec words it, formulated
independently of the source translation: take the final path component; when
it contains a dot at a position other than the leading character, the
extension is the case-preserved segment after the last dot (computed here
from the reversed component), otherwise there is none. -/
def specExtension (s : String) : Option String :=
  match fileNameOf s with
  | none => none
  | some c =>
    if '.' ∈ c.drop 1 then
      some (String.mk ((c.reverse.takeWhile (fun x => x ≠ '.')).reverse))
    else none

/-- On-disk name as the (amended) spec words it: the fresh id when the
extension is absent or empty, else the id, a dot, and the extension. -/
def specStoredFilename (file_id original : String) : String :=
  match specExtension original with
  | none => file_id
  | some e => if e = "" then file_id else file_id ++ "." ++ e

/-- The `filename` field of a successful `save_file` result. -/
def saveResultFilename (r : Blobs × Except String (List FileMetadata × FileMetadata)) :
    Option String :=
  match r.2 with
  | Except.ok (_, m) => some m.filename
  | Except.error _ => none

/-! ### Concrete states used by witnesses and counterexamples -/

/-- First member of a two-directory parent cycle. -/
def cycA : Directory :=
  { id := "a", name := "a", parent_id := some "b", created_at := "t", updated_at := "t" }

/-- Second member of a two-directory parent cycle. -/
def cycB : Directory :=
  { id := "b", name := "b", parent_id := some "a", created_at := "t", updated_at := "t" }

/-- A two-directory cycle: corrupt state used to exhibit divergence of the
ancestor walk. -/
def cycDirs : List Directory := [cycA, cycB]

/-- A single root directory, used as a concrete acyclic state. -/
def rootDir : Directory :=
  { id := "a", name := "root", parent_id := none, created_at := "t0", updated_at := "t0" }

/-- A concrete file row used by witnesses. -/
def sampleFile : FileMetadata :=
  { id := "f0", filename := "f0.txt", original_filename := "a.txt", file_size := 2
    mime_type := none, storage_path := "up/f0.txt", uploaded_at := "t0"
    description := none, parent_directory_id := none }

/-- The spec wording "walking up from `s` along `parent_id` reaches `t`":
some positive number of upward steps from `s` ends at `t`. -/
def ReachesUp (dirs : List Directory) (s t : String) : Prop :=
  ∃ n, 1 ≤ n ∧ parentIterN dirs n s = some t

/-- A concrete child of `rootDir`. -/
def dirB : Directory :=
  { id := "b", name := "b", parent_id := some "a", created_at := "t", updated_at := "t" }

/-- A concrete well-formed two-directory forest: `b` under root `a`. -/
def dirsW : List Directory := [rootDir, dirB]

/-- `dirB` after being moved to the root at time `t2`. -/
def dirBmoved : Directory :=
  { id := "b", name := "b", parent_id := none, created_at := "t", updated_at := "t2" }

/-- Expected metadata of a concrete `save_file` call, used by a witness. -/
def mPDF : FileMetadata :=
  { id := "id1", filename := "id1.PDF", original_filename := "doc.PDF", file_size := 1
    mime_type := none, storage_path := "up/id1.PDF", uploaded_at := "t"
    description := none, parent_directory_id := none }

/-- Expected metadata of a concrete extension-less empty `save_file` call,
used by a witness. -/
def mNote : FileMetadata :=
  { id := "id2", filename := "id2", original_filename := "note", file_size := 0
    mime_type := none, storage_path := "up/id2", uploaded_at := "t"
    description := none, parent_directory_id := none }

/-! ## Helper lemmas -/

theorem find?_map_pres {α : Type} (p : α → Bool) (u : α → α)
    (hu : ∀ a, p (u a) = p a) (l : List α) :
    (l.map u).find? p = (l.find? p).map u := by
  rw [List.find?_map]
  have : p ∘ u = p := funext hu
  rw [this]

theorem countP_pos_of_find? {α : Type} {p : α → Bool} {l : List α} {a : α}
    (h : l.find? p = some a) : 0 < l.countP p := by
  rw [List.countP_pos_iff]
  exact ⟨a, List.mem_of_find?_eq_some h, List.find?_some h⟩

theorem find?_filter_none {α : Type} (p q : α → Bool) (l : List α)
    (h : ∀ a, q a = true → p a = false) : (l.filter q).find? p = none := by
  rw [List.find?_eq_none]
  intro x hx
  have hm := List.mem_filter.mp hx
  simp [h x hm.2]

theorem find?_filter_all {α : Type} (p q : α → Bool) (l : List α)
    (hpq : ∀ a, p a = true → q a = true) :
    (l.filter q).find? p = l.find? p := by
  induction l with
  | nil => rfl
  | cons a t ih =>
    by_cases hp : p a = true
    · rw [List.filter_cons, if_pos (hpq a hp), List.find?_cons_of_pos _ hp,
        List.find?_cons_of_pos _ hp]
    · have hp' : p a = false := by simpa using hp
      by_cases hq : q a = true
      · rw [List.filter_cons, if_pos hq, List.find?_cons_of_neg _ (by simp [hp']),
          List.find?_cons_of_neg _ (by simp [hp'])]
        exact ih
      · rw [List.filter_cons, if_neg (by simpa using hq), List.find?_cons_of_neg _ (by simp [hp'])]
        exact ih

/-! ### Parent-chain lemmas -/

theorem parentIterN_one (dirs : List Directory) (i : String) :
    parentIterN dirs 1 i = parentOf dirs i := by
  show (parentOf dirs i).bind (parentIterN dirs 0) = parentOf dirs i
  cases parentOf dirs i <;> rfl

theorem parentIterN_add (dirs : List Directory) (m n : Nat) (i : String) :
    parentIterN dirs (m + n) i = (parentIterN dirs m i).bind (parentIterN dirs n) := by
  induction m generalizing i with
  | zero => simp [parentIterN]
  | succ k ih =>
    have : k + 1 + n = (k + n) + 1 := by omega
    rw [this]
    show (parentOf dirs i).bind (parentIterN dirs (k + n)) = _
    show _ = ((parentOf dirs i).bind (parentIterN dirs k)).bind (parentIterN dirs n)
    cases parentOf dirs i with
    | none => rfl
    | some j => simpa using ih j

theorem parentIterN_succ_back (dirs : List Directory) (n : Nat) (i : String) :
    parentIterN dirs (n + 1) i = (parentIterN dirs n i).bind (parentOf dirs) := by
  rw [parentIterN_add dirs n 1 i]
  cases parentIterN dirs n i with
  | none => rfl
  | some j => simp [parentIterN_one]

theorem parentIterN_isSome_of_add {dirs : List Directory} {a b : Nat} {i v : String}
    (h : parentIterN dirs (a + b) i = some v) : ∃ u, parentIterN dirs a i = some u := by
  rw [parentIterN_add] at h
  cases hu : parentIterN dirs a i with
  | none => rw [hu] at h; exact absurd h (by simp)
  | some u => exact ⟨u, rfl⟩

theorem getDirectory_mem_ids {dirs : List Directory} {i : String} {d : Directory}
    (h : getDirectory dirs i = some d) : i ∈ dirs.map (fun e => e.id) := by
  have hm := List.mem_of_find?_eq_some h
  have hp := List.find?_some h
  have : d.id = i := by simpa using hp
  exact this ▸ List.mem_map_of_mem (fun e => e.id) hm

theorem parentOf_isSome_mem {dirs : List Directory} {i p : String}
    (h : parentOf dirs i = some p) : i ∈ dirs.map (fun e => e.id) := by
  unfold parentOf at h
  cases hd : getDirectory dirs i with
  | none => rw [hd] at h; exact absurd h (by simp)
  | some d => exact getDirectory_mem_ids hd

theorem walk_true_of_chain {dirs : List Directory} {anc : String} :
    ∀ n s fuel, parentIterN dirs n s = some anc → 1 ≤ n → n ≤ fuel →
      isAncestorOfFuel dirs anc s fuel = some true := by
  intro n
  induction n with
  | zero => intro s fuel _ h1; omega
  | succ k ih =>
    intro s fuel hchain _ hfuel
    obtain ⟨f, rfl⟩ : ∃ f, fuel = f + 1 := ⟨fuel - 1, by omega⟩
    have hstep : (parentOf dirs s).bind (parentIterN dirs k) = some anc := hchain
    cases hp : parentOf dirs s with
    | none => rw [hp] at hstep; exact Option.noConfusion hstep
    | some p =>
      rw [hp] at hstep
      simp only [Option.some_bind] at hstep
      unfold parentOf at hp
      cases hd : getDirectory dirs s with
      | none => rw [hd] at hp; exact Option.noConfusion hp
      | some d =>
        rw [hd] at hp
        simp only [Option.some_bind] at hp
        show isAncestorOfFuel dirs anc s (f + 1) = some true
        unfold isAncestorOfFuel
        simp only [hd, hp]
        by_cases hpa : p = anc
        · rw [if_pos hpa]
        · rw [if_neg hpa]
          cases k with
          | zero =>
            exfalso
            exact hpa (by simpa [parentIterN] using hstep)
          | succ j => exact ih p f hstep (by omega) (by omega)

theorem firstHit_le_length {dirs : List Directory} {anc s : String} {n : Nat}
    (h1 : 1 ≤ n) (h : parentIterN dirs n s = some anc) :
    ∃ m, 1 ≤ m ∧ m ≤ dirs.length ∧ parentIterN dirs m s = some anc := by
  have hex : ∃ m, 1 ≤ m ∧ parentIterN dirs m s = some anc := ⟨n, h1, h⟩
  classical
  set m := Nat.find hex with hm
  obtain ⟨hm1, hmc⟩ := Nat.find_spec hex
  refine ⟨m, hm1, ?_, hmc⟩
  -- every node strictly before the first hit is a distinct existing directory
  have hdef : ∀ k, k < m → ∃ u, parentIterN dirs k s = some u := by
    intro k hk
    have : parentIterN dirs (k + (m - k)) s = some anc := by
      have : k + (m - k) = m := by omega
      rw [this]; exact hmc
    exact parentIterN_isSome_of_add this
  have hfound : ∀ k, k < m → ∀ u, parentIterN dirs k s = some u →
      u ∈ dirs.map (fun e => e.id) := by
    intro k hk u hu
    have hsucc : ∃ v, parentIterN dirs (k + 1) s = some v := by
      by_cases hkm : k + 1 < m
      · exact hdef (k + 1) hkm
      · have : k + 1 = m := by omega
        exact ⟨anc, this ▸ hmc⟩
    obtain ⟨v, hv⟩ := hsucc
    rw [parentIterN_succ_back, hu] at hv
    simp only [Option.some_bind] at hv
    exact parentOf_isSome_mem hv
  -- distinctness: a repeat before the first hit would give a shorter hit
  have hinj : ∀ k₁ k₂, k₁ < m → k₂ < m → k₁ < k₂ →
      parentIterN dirs k₁ s ≠ parentIterN dirs k₂ s := by
    intro k₁ k₂ hk₁ hk₂ hlt heq
    obtain ⟨u, hu₁⟩ := hdef k₁ hk₁
    have hu₂ : parentIterN dirs k₂ s = some u := by rw [← heq, hu₁]
    have hrest : parentIterN dirs (m - k₂) u = some anc := by
      have hsplit : parentIterN dirs (k₂ + (m - k₂)) s = some anc := by
        have : k₂ + (m - k₂) = m := by omega
        rw [this]; exact hmc
      rw [parentIterN_add, hu₂] at hsplit
      simpa using hsplit
    have hshort : parentIterN dirs (k₁ + (m - k₂)) s = some anc := by
      rw [parentIterN_add, hu₁]
      simpa using hrest
    have hlt' : k₁ + (m - k₂) < m := by omega
    have h1' : 1 ≤ k₁ + (m - k₂) := by omega
    exact Nat.find_min hex hlt' ⟨h1', hshort⟩
  -- package the chain as a nodup list of ids contained in the table ids
  have hnodup : ((List.range m).map
      (fun k => (parentIterN dirs k s).getD "")).Nodup := by
    refine List.Nodup.map_on ?_ (List.nodup_range m)
    intro k₁ hk₁ k₂ hk₂ heq
    rw [List.mem_range] at hk₁ hk₂
    by_contra hne
    rcases Nat.lt_or_ge k₁ k₂ with hlt | hge
    · obtain ⟨u₁, hu₁⟩ := hdef k₁ hk₁
      obtain ⟨u₂, hu₂⟩ := hdef k₂ hk₂
      rw [hu₁, hu₂] at heq
      exact hinj k₁ k₂ hk₁ hk₂ hlt (by rw [hu₁, hu₂]; simpa using heq)
    · have hlt : k₂ < k₁ := by omega
      obtain ⟨u₁, hu₁⟩ := hdef k₁ hk₁
      obtain ⟨u₂, hu₂⟩ := hdef k₂ hk₂
      rw [hu₁, hu₂] at heq
      exact hinj k₂ k₁ hk₂ hk₁ hlt (by rw [hu₁, hu₂]; simpa using heq.symm)
  have hsub : ((List.range m).map (fun k => (parentIterN dirs k s).getD "")) ⊆
      dirs.map (fun e => e.id) := by
    intro x hx
    obtain ⟨k, hk, hkx⟩ := List.mem_map.mp hx
    rw [List.mem_range] at hk
    obtain ⟨u, hu⟩ := hdef k hk
    have hxu : x = u := by rw [← hkx, hu]; rfl
    rw [hxu]
    exact hfound k hk u hu
  have hlen := (hnodup.subperm hsub).length_le
  simpa using hlen

theorem walk_none_chain {dirs : List Directory} {anc : String} :
    ∀ fuel s, isAncestorOfFuel dirs anc s fuel = none →
      ∀ k, (k ≤ fuel → ∃ u, parentIterN dirs k s = some u) ∧
        (k < fuel → ∃ u, parentIterN dirs k s = some u ∧ u ∈ dirs.map (fun e => e.id)) := by
  intro fuel
  induction fuel with
  | zero =>
    intro s _ k
    refine ⟨fun hk => ?_, fun hk => absurd hk (by omega)⟩
    have : k = 0 := by omega
    exact ⟨s, by rw [this]; rfl⟩
  | succ f ih =>
    intro s hw k
    unfold isAncestorOfFuel at hw
    cases hd : getDirectory dirs s with
    | none => simp only [hd] at hw; exact Option.noConfusion hw
    | some d =>
      simp only [hd] at hw
      cases hp : d.parent_id with
      | none => simp only [hp] at hw; exact Option.noConfusion hw
      | some pid =>
        simp only [hp] at hw
        by_cases hpa : pid = anc
        · rw [if_pos hpa] at hw; exact Option.noConfusion hw
        · rw [if_neg hpa] at hw
          have hpo : parentOf dirs s = some pid := by
            simp [parentOf, hd, hp]
          have hstep : ∀ j, parentIterN dirs (j + 1) s = parentIterN dirs j pid := by
            intro j
            show (parentOf dirs s).bind (parentIterN dirs j) = _
            rw [hpo]; rfl
          constructor
          · intro hk
            cases k with
            | zero => exact ⟨s, rfl⟩
            | succ j =>
              obtain ⟨u, hu⟩ := (ih pid hw j).1 (by omega)
              exact ⟨u, by rw [hstep j]; exact hu⟩
          · intro hk
            cases k with
            | zero => exact ⟨s, rfl, getDirectory_mem_ids hd⟩
            | succ j =>
              obtain ⟨u, hu, hmem⟩ := (ih pid hw j).2 (by omega)
              exact ⟨u, by rw [hstep j]; exact hu, hmem⟩

theorem walk_terminates_of_acyclic {dirs : List Directory} {anc s : String}
    (hac : Acyclic dirs) :
    ∃ b, isAncestorOfFuel dirs anc s (dirs.length + 1) = some b := by
  cases hw : isAncestorOfFuel dirs anc s (dirs.length + 1) with
  | some b => exact ⟨b, rfl⟩
  | none =>
    exfalso
    have hchain := walk_none_chain (dirs.length + 1) s hw
    have hdef : ∀ k, k < dirs.length + 1 →
        ∃ u, parentIterN dirs k s = some u ∧ u ∈ dirs.map (fun e => e.id) := by
      intro k hk
      exact (hchain k).2 hk
    have hinj : ∀ k₁ k₂, k₁ < dirs.length + 1 → k₂ < dirs.length + 1 → k₁ < k₂ →
        parentIterN dirs k₁ s ≠ parentIterN dirs k₂ s := by
      intro k₁ k₂ hk₁ hk₂ hlt heq
      obtain ⟨u, hu, _⟩ := hdef k₁ hk₁
      have hu₂ : parentIterN dirs k₂ s = some u := by rw [← heq, hu]
      have hcyc : parentIterN dirs (k₂ - k₁) u = some u := by
        have hsplit : parentIterN dirs (k₁ + (k₂ - k₁)) s = some u := by
          have : k₁ + (k₂ - k₁) = k₂ := by omega
          rw [this]; exact hu₂
        rw [parentIterN_add, hu] at hsplit
        simpa using hsplit
      obtain ⟨j, hj⟩ : ∃ j, k₂ - k₁ = j + 1 := ⟨k₂ - k₁ - 1, by omega⟩
      rw [hj] at hcyc
      exact hac u j hcyc
    have hnodup : ((List.range (dirs.length + 1)).map
        (fun k => (parentIterN dirs k s).getD "")).Nodup := by
      refine List.Nodup.map_on ?_ (List.nodup_range _)
      intro k₁ hk₁ k₂ hk₂ heq
      rw [List.mem_range] at hk₁ hk₂
      by_contra hne
      rcases Nat.lt_or_ge k₁ k₂ with hlt | hge
      · obtain ⟨u₁, hu₁, _⟩ := hdef k₁ hk₁
        obtain ⟨u₂, hu₂, _⟩ := hdef k₂ hk₂
        rw [hu₁, hu₂] at heq
        exact hinj k₁ k₂ hk₁ hk₂ hlt (by rw [hu₁, hu₂]; simpa using heq)
      · have hlt : k₂ < k₁ := by omega
        obtain ⟨u₁, hu₁, _⟩ := hdef k₁ hk₁
        obtain ⟨u₂, hu₂, _⟩ := hdef k₂ hk₂
        rw [hu₁, hu₂] at heq
        exact hinj k₂ k₁ hk₂ hk₁ hlt (by rw [hu₁, hu₂]; simpa using heq.symm)
    have hsub : ((List.range (dirs.length + 1)).map
        (fun k => (parentIterN dirs k s).getD "")) ⊆ dirs.map (fun e => e.id) := by
      intro x hx
      obtain ⟨k, hk, hkx⟩ := List.mem_map.mp hx
      rw [List.mem_range] at hk
      obtain ⟨u, hu, hmem⟩ := hdef k hk
      have hxu : x = u := by rw [← hkx, hu]; rfl
      rw [hxu]
      exact hmem
    have hlen := (hnodup.subperm hsub).length_le
    simp only [List.length_map, List.length_range] at hlen
    omega

/-! ### Transfer, rotation and simulation lemmas for the parent relation -/

theorem parentIterN_transfer {dirs dirs' : List Directory} {dir_id : String}
    (hstep : ∀ j, j ≠ dir_id → parentOf dirs' j = parentOf dirs j) :
    ∀ m s, (∀ k, k < m → parentIterN dirs' k s ≠ some dir_id) →
      parentIterN dirs' m s = parentIterN dirs m s := by
  intro m
  induction m with
  | zero => intro s _; rfl
  | succ j ih =>
    intro s hk
    have hs : s ≠ dir_id := by
      intro h
      exact hk 0 (by omega) (by rw [h]; rfl)
    show (parentOf dirs' s).bind (parentIterN dirs' j) =
      (parentOf dirs s).bind (parentIterN dirs j)
    rw [hstep s hs]
    cases hq : parentOf dirs s with
    | none => rfl
    | some q =>
      simp only [Option.some_bind]
      refine ih q ?_
      intro k hkj
      have := hk (k + 1) (by omega)
      show parentIterN dirs' k q ≠ some dir_id
      intro hcon
      apply this
      show (parentOf dirs' s).bind (parentIterN dirs' k) = some dir_id
      rw [hstep s hs, hq]
      simpa using hcon

theorem cycle_rotate {dirs : List Directory} {n k : Nat} {i v : String}
    (hc : parentIterN dirs n i = some i) (hk : k ≤ n)
    (hv : parentIterN dirs k i = some v) :
    parentIterN dirs n v = some v := by
  have hrest : parentIterN dirs (n - k) v = some i := by
    have hsplit : parentIterN dirs (k + (n - k)) i = some i := by
      have : k + (n - k) = n := by omega
      rw [this]; exact hc
    rw [parentIterN_add, hv] at hsplit
    simpa using hsplit
  have : parentIterN dirs ((n - k) + k) v = some v := by
    rw [parentIterN_add, hrest]
    simpa using hv
  have hnk : (n - k) + k = n := by omega
  rw [hnk] at this
  exact this

theorem parentIterN_substep {dirs₂ dirs : List Directory}
    (hsub : ∀ j x, parentOf dirs₂ j = some x → parentOf dirs j = some x) :
    ∀ m s v, parentIterN dirs₂ m s = some v → parentIterN dirs m s = some v := by
  intro m
  induction m with
  | zero => intro s v h; exact h
  | succ j ih =>
    intro s v h
    have hstep : (parentOf dirs₂ s).bind (parentIterN dirs₂ j) = some v := h
    cases hp : parentOf dirs₂ s with
    | none => rw [hp] at hstep; exact Option.noConfusion hstep
    | some q =>
      rw [hp] at hstep
      simp only [Option.some_bind] at hstep
      show (parentOf dirs s).bind (parentIterN dirs j) = some v
      rw [hsub s q hp]
      simpa using ih q v hstep

theorem acyclic_of_substep {dirs₂ dirs : List Directory}
    (hsub : ∀ j x, parentOf dirs₂ j = some x → parentOf dirs j = some x)
    (hac : Acyclic dirs) : Acyclic dirs₂ := by
  intro i n hcyc
  exact hac i n (parentIterN_substep hsub (n + 1) i i hcyc)

/-! ### The parent relation after each mutating directory operation -/

theorem getDirectory_move {dirs : List Directory} {dir_id : String}
    {p : Option String} {now : String} (i : String) :
    getDirectory (moveUpdate dirs dir_id p now) i =
      (getDirectory dirs i).map (fun d =>
        if d.id == dir_id then { d with parent_id := p, updated_at := now } else d) := by
  unfold moveUpdate getDirectory
  refine find?_map_pres _ _ ?_ dirs
  intro d
  cases h : d.id == dir_id with
  | true => simp [h]
  | false => simp [h]

theorem parentOf_move_ne {dirs : List Directory} {dir_id : String}
    {p : Option String} {now : String} {i : String} (hi : i ≠ dir_id) :
    parentOf (moveUpdate dirs dir_id p now) i = parentOf dirs i := by
  unfold parentOf
  rw [getDirectory_move]
  cases hd : getDirectory dirs i with
  | none => rfl
  | some d =>
    have hdi : d.id = i := by simpa using List.find?_some hd
    simp [hdi, hi]

theorem parentOf_move_eq {dirs : List Directory} {dir_id : String}
    {p : Option String} {now : String} {d0 : Directory}
    (hd : getDirectory dirs dir_id = some d0) :
    parentOf (moveUpdate dirs dir_id p now) dir_id = p := by
  unfold parentOf
  rw [getDirectory_move, hd]
  have hdi : d0.id = dir_id := by simpa using List.find?_some hd
  simp [hdi]

theorem parentOf_move_missing {dirs : List Directory} {dir_id : String}
    {p : Option String} {now : String}
    (hd : getDirectory dirs dir_id = none) :
    parentOf (moveUpdate dirs dir_id p now) dir_id = none := by
  unfold parentOf
  rw [getDirectory_move, hd]
  rfl

theorem getDirectory_append_new {dirs : List Directory} {d : Directory} (i : String) :
    getDirectory (dirs ++ [d]) i = (getDirectory dirs i).or (getDirectory [d] i) := by
  unfold getDirectory
  exact List.find?_append

theorem parentOf_create_ne {dirs : List Directory} {d : Directory} {i : String}
    (hi : i ≠ d.id) : parentOf (dirs ++ [d]) i = parentOf dirs i := by
  unfold parentOf
  rw [getDirectory_append_new]
  cases hd : getDirectory dirs i with
  | some e => rfl
  | none =>
    have hne : (d.id == i) = false := by
      simp only [beq_eq_false_iff_ne, ne_eq]
      exact fun h => hi h.symm
    have : getDirectory [d] i = none := by
      unfold getDirectory
      simp [List.find?, hne]
    simp [this]

theorem parentOf_create_eq {dirs : List Directory} {d : Directory}
    (hfresh : ∀ e ∈ dirs, e.id ≠ d.id) :
    parentOf (dirs ++ [d]) d.id = d.parent_id := by
  unfold parentOf
  rw [getDirectory_append_new]
  have h1 : getDirectory dirs d.id = none := by
    unfold getDirectory
    rw [List.find?_eq_none]
    intro e he
    simp [hfresh e he]
  have h2 : getDirectory [d] d.id = some d := by
    unfold getDirectory
    simp [List.find?]
  rw [h1, h2]
  rfl

theorem parentOf_delete {dirs : List Directory} {dir_id : String} {j x : String}
    (h : parentOf (dirs.filter (fun d =>
        !(reachesWithin dirs dirs.length d.id dir_id))) j = some x) :
    parentOf dirs j = some x := by
  unfold parentOf at h ⊢
  by_cases hg : (!(reachesWithin dirs dirs.length j dir_id)) = true
  · have heq : getDirectory (dirs.filter (fun d =>
        !(reachesWithin dirs dirs.length d.id dir_id))) j = getDirectory dirs j := by
      unfold getDirectory
      refine find?_filter_all _ _ dirs ?_
      intro a ha
      have : a.id = j := by simpa using ha
      rw [this]
      exact hg
    rw [heq] at h
    exact h
  · have heq : getDirectory (dirs.filter (fun d =>
        !(reachesWithin dirs dirs.length d.id dir_id))) j = none := by
      unfold getDirectory
      refine find?_filter_none _ _ dirs ?_
      intro a ha
      by_cases haj : a.id = j
      · rw [haj] at ha; exact absurd ha hg
      · simp [haj]
    rw [heq] at h
    exact Option.noConfusion h

/-! ### Acyclicity preservation, operation by operation -/

theorem moveCheck_pass {dirs : List Directory} {dir_id : String} {p : Option String}
    (h : moveCheck dirs dir_id p = some none) :
    p = none ∨ ∃ target, p = some target ∧ target ≠ dir_id ∧
      isAncestorOfFuel dirs dir_id target (dirs.length + 1) = some false := by
  cases p with
  | none => exact Or.inl rfl
  | some target =>
    simp only [moveCheck] at h
    by_cases ht : target = dir_id
    · rw [if_pos ht] at h
      simp at h
    · rw [if_neg ht] at h
      refine Or.inr ⟨target, rfl, ht, ?_⟩
      cases hw : isAncestorOfFuel dirs dir_id target (dirs.length + 1) with
      | none => rw [hw] at h; exact Option.noConfusion h
      | some b =>
        cases b with
        | true => rw [hw] at h; simp at h
        | false => rfl

theorem move_update_acyclic {dirs : List Directory} {dir_id : String}
    {p : Option String} {now : String} (hac : Acyclic dirs)
    (hck : p = none ∨ ∃ target, p = some target ∧ target ≠ dir_id ∧
      isAncestorOfFuel dirs dir_id target (dirs.length + 1) = some false) :
    Acyclic (moveUpdate dirs dir_id p now) := by
  intro i n hcyc
  classical
  by_cases hvisit : ∃ k, k ≤ n + 1 ∧ parentIterN (moveUpdate dirs dir_id p now) k i = some dir_id
  · obtain ⟨k, hk, hkv⟩ := hvisit
    have hcyc' : parentIterN (moveUpdate dirs dir_id p now) (n + 1) dir_id = some dir_id :=
      cycle_rotate hcyc hk hkv
    have hfront : (parentOf (moveUpdate dirs dir_id p now) dir_id).bind
        (parentIterN (moveUpdate dirs dir_id p now) n) = some dir_id := hcyc'
    cases hgd : getDirectory dirs dir_id with
    | none =>
      rw [parentOf_move_missing hgd] at hfront
      exact Option.noConfusion hfront
    | some d0 =>
      rw [parentOf_move_eq hgd] at hfront
      rcases hck with hnone | ⟨target, hp, hne, hwalk⟩
      · rw [hnone] at hfront
        exact Option.noConfusion hfront
      · subst hp
        simp only [Option.some_bind] at hfront
        have hexQ : ∃ m, parentIterN (moveUpdate dirs dir_id (some target) now) m target
            = some dir_id := ⟨n, hfront⟩
        have hQ := Nat.find_spec hexQ
        have hm1 : 1 ≤ Nat.find hexQ := by
          rcases Nat.eq_zero_or_pos (Nat.find hexQ) with h0 | h1
          · exfalso
            rw [h0] at hQ
            exact hne (by simpa [parentIterN] using hQ)
          · exact h1
        have hold : parentIterN dirs (Nat.find hexQ) target = some dir_id := by
          rw [← parentIterN_transfer (fun j hj => parentOf_move_ne hj) (Nat.find hexQ) target ?_]
          · exact hQ
          · intro k hkm hcon
            exact Nat.find_min hexQ hkm hcon
        obtain ⟨m', hm'1, hm'len, hm'chain⟩ := firstHit_le_length hm1 hold
        have htrue := walk_true_of_chain m' target (dirs.length + 1) hm'chain hm'1 (by omega)
        rw [hwalk] at htrue
        simp at htrue
  · have hnk : ∀ k, k < n + 1 → parentIterN (moveUpdate dirs dir_id p now) k i ≠ some dir_id :=
      fun k hk hcon => hvisit ⟨k, by omega, hcon⟩
    have := parentIterN_transfer (fun j hj => parentOf_move_ne hj) (n + 1) i hnk
    rw [this] at hcyc
    exact hac i n hcyc

theorem move_preserves_acyclic {dirs : List Directory} {dir_id : String}
    {p : Option String} {now : String} {dirs' : List Directory}
    {res : Except String (Option Directory)}
    (hmv : move_directory dirs dir_id p now = some (dirs', res))
    (hac : Acyclic dirs) : Acyclic dirs' := by
  unfold move_directory at hmv
  cases hck : moveCheck dirs dir_id p with
  | none => rw [hck] at hmv; exact Option.noConfusion hmv
  | some o =>
    cases o with
    | some e =>
      rw [hck] at hmv
      simp only at hmv
      injection hmv with hpair
      injection hpair with h1 h2
      rw [← h1]
      exact hac
    | none =>
      rw [hck] at hmv
      simp only at hmv
      by_cases haff : dirs.countP (fun d => d.id == dir_id) = 0
      · rw [if_pos haff] at hmv
        injection hmv with hpair
        injection hpair with h1 h2
        rw [← h1]
        exact hac
      · rw [if_neg haff] at hmv
        injection hmv with hpair
        injection hpair with h1 h2
        rw [← h1]
        exact move_update_acyclic hac (moveCheck_pass hck)

theorem create_preserves_acyclic {dirs : List Directory} {dir_id now name : String}
    {parent_id : Option String} {dirs' : List Directory} {d : Directory}
    (hfresh : ∀ e ∈ dirs, e.id ≠ dir_id ∧ e.parent_id ≠ some dir_id)
    (hparent : parent_id ≠ some dir_id)
    (hop : create_directory dirs dir_id now name parent_id = Except.ok (dirs', d))
    (hac : Acyclic dirs) : Acyclic dirs' := by
  unfold create_directory at hop
  by_cases hany : dirs.any (fun e => e.id == dir_id) = true
  · rw [if_pos hany] at hop; exact Except.noConfusion hop
  · rw [if_neg hany] at hop
    injection hop with hpair
    injection hpair with h1 h2
    set newD : Directory :=
      { id := dir_id, name := name, parent_id := parent_id
        created_at := now, updated_at := now } with hnewD
    rw [← h1]
    have hids : ∀ e ∈ dirs, e.id ≠ newD.id := fun e he => (hfresh e he).1
    intro i n hcyc
    classical
    by_cases hvisit : ∃ k, k ≤ n + 1 ∧ parentIterN (dirs ++ [newD]) k i = some dir_id
    · obtain ⟨k, hk, hkv⟩ := hvisit
      have hcyc' : parentIterN (dirs ++ [newD]) (n + 1) dir_id = some dir_id :=
        cycle_rotate hcyc hk hkv
      -- decompose the final step of the cycle at the new directory
      rw [parentIterN_succ_back] at hcyc'
      cases hx : parentIterN (dirs ++ [newD]) n dir_id with
      | none => rw [hx] at hcyc'; exact Option.noConfusion hcyc'
      | some x =>
        rw [hx] at hcyc'
        simp only [Option.some_bind] at hcyc'
        by_cases hxid : x = dir_id
        · rw [hxid] at hcyc'
          have : parentOf (dirs ++ [newD]) dir_id = parent_id := by
            have := @parentOf_create_eq dirs newD hids
            simpa using this
          rw [this] at hcyc'
          exact hparent hcyc'
        · rw [parentOf_create_ne (by simpa using hxid)] at hcyc'
          unfold parentOf at hcyc'
          cases hrow : getDirectory dirs x with
          | none => rw [hrow] at hcyc'; exact Option.noConfusion hcyc'
          | some row =>
            rw [hrow] at hcyc'
            simp only [Option.some_bind] at hcyc'
            exact (hfresh row (List.mem_of_find?_eq_some hrow)).2 hcyc'
    · have hnk : ∀ k, k < n + 1 → parentIterN (dirs ++ [newD]) k i ≠ some dir_id :=
        fun k hk hcon => hvisit ⟨k, by omega, hcon⟩
      have hstep : ∀ j, j ≠ dir_id → parentOf (dirs ++ [newD]) j = parentOf dirs j := by
        intro j hj
        exact parentOf_create_ne (by simpa using hj)
      have := parentIterN_transfer hstep (n + 1) i hnk
      rw [this] at hcyc
      exact hac i n hcyc

theorem delete_preserves_acyclic {dirs : List Directory} {dir_id : String}
    {dirs' : List Directory} {b : Bool}
    (hop : delete_directory_dirs dirs dir_id = (dirs', b))
    (hac : Acyclic dirs) : Acyclic dirs' := by
  unfold delete_directory_dirs at hop
  cases hgd : getDirectory dirs dir_id with
  | none =>
    rw [hgd] at hop
    injection hop with h1 h2
    rw [← h1]
    exact hac
  | some d =>
    rw [hgd] at hop
    injection hop with h1 h2
    rw [← h1]
    exact acyclic_of_substep (fun j x h => parentOf_delete h) hac

theorem dirStep_preserves_acyclic {dirs dirs' : List Directory}
    (hstep : DirStep dirs dirs') (hac : Acyclic dirs) : Acyclic dirs' := by
  cases hstep with
  | create _ _ _ _ _ _ hfresh hparent hop =>
    exact create_preserves_acyclic hfresh hparent hop hac
  | move _ _ _ _ _ hop => exact move_preserves_acyclic hop hac
  | delete _ _ _ hop => exact delete_preserves_acyclic hop hac

/-! ### Sorting, blob and extension helper lemmas -/

theorem insertByUploadedDesc_perm (x : FileMetadata) (l : List FileMetadata) :
    (insertByUploadedDesc x l).Perm (x :: l) := by
  induction l with
  | nil => exact List.Perm.refl _
  | cons y ys ih =>
    unfold insertByUploadedDesc
    by_cases h : y.uploaded_at ≤ x.uploaded_at
    · rw [if_pos h]
    · rw [if_neg h]
      exact (List.Perm.cons y ih).trans (List.Perm.swap x y ys)

theorem sortByUploadedDesc_perm (l : List FileMetadata) :
    (sortByUploadedDesc l).Perm l := by
  induction l with
  | nil => exact List.Perm.refl _
  | cons x xs ih =>
    exact (insertByUploadedDesc_perm x (sortByUploadedDesc xs)).trans (List.Perm.cons x ih)

theorem getBlob_setBlob (bs : Blobs) (p : String) (content : List Nat) :
    getBlob (setBlob bs p content) p = some content := by
  unfold getBlob setBlob
  simp [List.find?]

theorem takeWhile_append_stop {α : Type} {p : α → Bool} {xs ys : List α}
    (h : ∃ x ∈ xs, p x = false) :
    (xs ++ ys).takeWhile p = xs.takeWhile p := by
  induction xs with
  | nil =>
    obtain ⟨x, hx, _⟩ := h
    exact absurd hx (List.not_mem_nil x)
  | cons a t ih =>
    by_cases hpa : p a = true
    · rw [List.cons_append, List.takeWhile_cons_of_pos hpa, List.takeWhile_cons_of_pos hpa]
      obtain ⟨x, hx, hpx⟩ := h
      have hxa : x ≠ a := by
        intro hxa
        rw [hxa] at hpx
        rw [hpx] at hpa
        exact Bool.noConfusion hpa
      have : x ∈ t := by
        cases List.mem_cons.mp hx with
        | inl h' => exact absurd h' hxa
        | inr h' => exact h'
      rw [ih ⟨x, this, hpx⟩]
    · have hpa' : ¬ p a = true := hpa
      rw [List.cons_append, List.takeWhile_cons_of_neg hpa', List.takeWhile_cons_of_neg hpa']

theorem extAfterLastDot_eq (l : List Char) :
    extAfterLastDot l =
      if '.' ∈ l then some ((l.reverse.takeWhile (fun x => x ≠ '.')).reverse)
      else none := by
  induction l with
  | nil => simp [extAfterLastDot]
  | cons c cs ih =>
    show (match extAfterLastDot cs with
      | some e => some e
      | none => if c = '.' then some cs else none) = _
    by_cases hmem : '.' ∈ cs
    · rw [ih, if_pos hmem]
      have hmem' : '.' ∈ cs.reverse := List.mem_reverse.mpr hmem
      have hstop : (cs.reverse ++ [c]).takeWhile (fun x => x ≠ '.') =
          cs.reverse.takeWhile (fun x => x ≠ '.') :=
        takeWhile_append_stop ⟨'.', hmem', by simp⟩
      rw [if_pos (List.mem_cons_of_mem c hmem), List.reverse_cons, hstop]
    · rw [ih, if_neg hmem]
      by_cases hc : c = '.'
      · have hall : ∀ x ∈ cs.reverse, (fun x => x ≠ '.') x = true := by
          intro x hx
          have hxs : x ∈ cs := List.mem_reverse.mp hx
          have hne : x ≠ '.' := fun hxd => hmem (hxd ▸ hxs)
          simp [hne]
        have hpos : (cs.reverse ++ [c]).takeWhile (fun x => x ≠ '.') =
            cs.reverse ++ ([c].takeWhile (fun x => x ≠ '.')) :=
          List.takeWhile_append_of_pos (by simpa using hall)
        have hc' : ([c].takeWhile (fun x => x ≠ '.')) = [] := by
          rw [hc]
          simp
        rw [if_pos hc, if_pos (by rw [hc]; exact List.mem_cons_self '.' cs),
          List.reverse_cons, hpos, hc']
        simp
      · rw [if_neg hc, if_neg (by
          intro hin
          cases List.mem_cons.mp hin with
          | inl h' => exact hc h'.symm
          | inr h' => exact hmem h')]

theorem specExtension_eq_pathExtension (s : String) :
    pathExtension s = (specExtension s).getD "" := by
  unfold pathExtension specExtension
  cases hfn : fileNameOf s with
  | none => rfl
  | some c =>
    cases c with
    | nil => rfl
    | cons c0 rest =>
      show (match rustExtensionOfName (c0 :: rest) with
          | none => "" | some e => String.mk e) =
        (if '.' ∈ (c0 :: rest).drop 1 then
            some (String.mk (((c0 :: rest).reverse.takeWhile (fun x => x ≠ '.')).reverse))
          else none).getD ""
      have hrust : rustExtensionOfName (c0 :: rest) = extAfterLastDot rest := by
        show (match extAfterLastDot rest with | some e => some e | none => none) = _
        cases extAfterLastDot rest <;> rfl
      rw [hrust, extAfterLastDot_eq rest]
      by_cases hmem : '.' ∈ rest
      · have hdrop : '.' ∈ (c0 :: rest).drop 1 := by simpa using hmem
        rw [if_pos hmem, if_pos hdrop]
        have hstop : ((c0 :: rest).reverse.takeWhile (fun x => x ≠ '.')) =
            (rest.reverse.takeWhile (fun x => x ≠ '.')) := by
          rw [List.reverse_cons]
          exact takeWhile_append_stop ⟨'.', List.mem_reverse.mpr hmem, by simp⟩
        rw [hstop]
        rfl
      · have hdrop : ¬ ('.' ∈ (c0 :: rest).drop 1) := by simpa using hmem
        rw [if_neg hmem, if_neg hdrop]
        rfl

/-! ### Operation characterizations used by the claim theorems -/

theorem find?_filter_not {α : Type} (p : α → Bool) (l : List α) :
    (l.filter (fun a => !(p a))).find? p = none := by
  refine find?_filter_none p _ l ?_
  intro a hq
  cases hpa : p a with
  | false => rfl
  | true => rw [hpa] at hq; exact absurd hq (by simp)

theorem save_file_ok {files : List FileMetadata} {blobs : Blobs}
    {upload_dir file_id now filename : String} {content : List Nat}
    {mt ds pd : Option String} {blobs' : Blobs} {files' : List FileMetadata}
    {m : FileMetadata}
    (hok : save_file files blobs upload_dir file_id now filename content mt ds pd
      = (blobs', Except.ok (files', m))) :
    m = savedMetadata upload_dir file_id now filename content mt ds pd ∧
    blobs' = setBlob blobs m.storage_path content ∧
    files' = files ++ [m] := by
  unfold save_file at hok
  by_cases hdup : files.any (fun f => f.id == file_id) = true
  · rw [if_pos hdup] at hok
    injection hok with h1 h2
    exact Except.noConfusion h2
  · rw [if_neg hdup] at hok
    injection hok with h1 h2
    injection h2 with h3
    injection h3 with h4 h5
    subst h5
    subst h1
    subst h4
    exact ⟨rfl, rfl, rfl⟩

theorem save_file_accepts_fresh {files : List FileMetadata} {blobs : Blobs}
    {upload_dir file_id now filename : String} {content : List Nat}
    {mt ds pd : Option String}
    (hfresh : ∀ f ∈ files, f.id ≠ file_id) :
    save_file files blobs upload_dir file_id now filename content mt ds pd
      = (setBlob blobs
          (savedMetadata upload_dir file_id now filename content mt ds pd).storage_path
          content,
        Except.ok (files ++ [savedMetadata upload_dir file_id now filename content mt ds pd],
          savedMetadata upload_dir file_id now filename content mt ds pd)) := by
  unfold save_file
  have hany : files.any (fun f => f.id == file_id) = false := by
    rw [List.any_eq_false]
    intro f hf
    simp [hfresh f hf]
  rw [hany]
  simp

theorem move_file_found {files : List FileMetadata} {fid : String}
    {t : Option String} {f : FileMetadata}
    (hmem : files.find? (fun g => g.id == fid) = some f) :
    move_file files fid t =
      (files.map (fun g =>
        if g.id == fid then { g with parent_directory_id := t } else g),
       some { f with parent_directory_id := t }) := by
  unfold move_file
  have hpos := countP_pos_of_find? hmem
  rw [if_neg (by omega)]
  have hu : ∀ g : FileMetadata,
      (({ g with parent_directory_id := t } : FileMetadata).id == fid) = (g.id == fid) := by
    intro g; rfl
  have hfind : (files.map (fun g =>
      if g.id == fid then { g with parent_directory_id := t } else g)).find?
        (fun g => g.id == fid) = some { f with parent_directory_id := t } := by
    rw [find?_map_pres _ _ ?hpres files, hmem]
    case hpres =>
      intro g
      cases hg : g.id == fid with
      | true => simp [hg]
      | false => simp [hg]
    have hfid := List.find?_some hmem
    simp only at hfid
    simp [hfid]
    intro hne
    exact absurd (by simpa using hfid) hne
  rw [hfind]

theorem storedFilename_eq_spec (file_id filename : String) :
    storedFilenameOf file_id filename = specStoredFilename file_id filename := by
  unfold storedFilenameOf specStoredFilename
  rw [specExtension_eq_pathExtension filename]
  cases specExtension filename with
  | none => simp
  | some e =>
    by_cases he : e = ""
    · simp [he]
    · simp [he]

/-! ### Facts about the concrete states -/

theorem parentOf_dirsW (i : String) :
    parentOf dirsW i = if i = "b" then some "a" else none := by
  by_cases hb : i = "b"
  · rw [if_pos hb, hb]
    decide
  · rw [if_neg hb]
    by_cases ha : i = "a"
    · rw [ha]
      decide
    · have h1 : (("a" : String) == i) = false := by
        simp only [beq_eq_false_iff_ne, ne_eq]
        exact fun h => ha h.symm
      have h2 : (("b" : String) == i) = false := by
        simp only [beq_eq_false_iff_ne, ne_eq]
        exact fun h => hb h.symm
      have hr : (rootDir.id == i) = false := h1
      have hb' : (dirB.id == i) = false := h2
      unfold parentOf getDirectory dirsW
      rw [List.find?_cons_of_neg _ (by simp [hr]), List.find?_cons_of_neg _ (by simp [hb'])]
      rfl

theorem acyclic_dirsW : Acyclic dirsW := by
  intro i n hcyc
  have hstep : (parentOf dirsW i).bind (parentIterN dirsW n) = some i := hcyc
  rw [parentOf_dirsW] at hstep
  by_cases hb : i = "b"
  · rw [if_pos hb] at hstep
    simp only [Option.some_bind] at hstep
    cases n with
    | zero =>
      have : ("a" : String) = i := by simpa [parentIterN] using hstep
      rw [hb] at this
      exact (by decide : ("a" : String) ≠ "b") this
    | succ k =>
      have hstep2 : (parentOf dirsW "a").bind (parentIterN dirsW k) = some i := hstep
      rw [parentOf_dirsW, if_neg (by decide)] at hstep2
      exact Option.noConfusion hstep2
  · rw [if_neg hb] at hstep
    exact Option.noConfusion hstep

theorem cycDirs_walk_diverges :
    ∀ fuel s, s = "a" ∨ s = "b" → isAncestorOfFuel cycDirs "c" s fuel = none := by
  intro fuel
  induction fuel with
  | zero => intro s _; rfl
  | succ f ih =>
    intro s hs
    have hga : getDirectory cycDirs "a" = some cycA := by decide
    have hgb : getDirectory cycDirs "b" = some cycB := by decide
    cases hs with
    | inl h =>
      rw [h]
      show isAncestorOfFuel cycDirs "c" "a" (f + 1) = none
      unfold isAncestorOfFuel
      simp only [hga, cycA]
      rw [if_neg (by decide : ¬ ("b" : String) = "c")]
      exact ih "b" (Or.inr rfl)
    | inr h =>
      rw [h]
      show isAncestorOfFuel cycDirs "c" "b" (f + 1) = none
      unfold isAncestorOfFuel
      simp only [hgb, cycB]
      rw [if_neg (by decide : ¬ ("a" : String) = "c")]
      exact ih "a" (Or.inl rfl)

/-! ## Claim theorems -/

/-- C2, counterexample: with fresh id `id0`, uploading `a.TXT` stores
filename `id0.TXT` (extension case preserved), not the `id0.txt` the claim
derives by lowercasing; and uploading `.bashrc` stores the bare `id0`, not
the `id0.bashrc` the claim derives from "substring after the final dot". -/
theorem C2_counterexample :
    saveResultFilename (save_file [] [] "up" "id0" "t" "a.TXT" [] none none none)
        = some "id0.TXT" ∧
    saveResultFilename (save_file [] [] "up" "id0" "t" "a.TXT" [] none none none)
        ≠ some ("id0" ++ "." ++ "txt") ∧
    saveResultFilename (save_file [] [] "up" "id0" "t" ".bashrc" [] none none none)
        = some "id0" ∧
    saveResultFilename (save_file [] [] "up" "id0" "t" ".bashrc" [] none none none)
        ≠ some ("id0" ++ "." ++ "bashrc") :=
  ⟨by decide, by decide, by decide, by decide⟩

/-- C2, amended: a successful `save_file` stores the metadata filename (and
the blob under the matching on-disk path) as `specStoredFilename`: the fresh
id when the extension of `original_filename` is absent or empty, otherwise
id, dot, extension — where the extension follows Rust `Path::extension`:
the case-preserved segment of the final path component after its last dot,
absent when that component has no dot or only a leading one. -/
theorem C2_filename_derivation {files : List FileMetadata} {blobs : Blobs}
    {upload_dir file_id now filename : String} {content : List Nat}
    {mt ds pd : Option String} {blobs' : Blobs} {files' : List FileMetadata}
    {m : FileMetadata}
    (hok : save_file files blobs upload_dir file_id now filename content mt ds pd
      = (blobs', Except.ok (files', m))) :
    m.filename = specStoredFilename file_id filename ∧
    getBlob blobs' (pathJoin upload_dir (specStoredFilename file_id filename))
      = some content := by
  obtain ⟨hm, hb, hf⟩ := save_file_ok hok
  subst hm
  constructor
  · exact storedFilename_eq_spec file_id filename
  · rw [hb, ← storedFilename_eq_spec file_id filename]
    exact getBlob_setBlob blobs _ content

/-- Witness for C2 at the concrete upload of `doc.PDF` as id `id1`. -/
theorem C2_witness :
    mPDF.filename = specStoredFilename "id1" "doc.PDF" ∧
    getBlob [("up/id1.PDF", [7])] (pathJoin "up" (specStoredFilename "id1" "doc.PDF"))
      = some [7] :=
  @C2_filename_derivation [] [] "up" "id1" "t" "doc.PDF" [7] none none none
    [("up/id1.PDF", [7])] [mPDF] mPDF (by rfl)

/-- C4: `delete_file` returns `true` exactly when a row for the id existed
(and was removed); with no row it returns `false` and leaves the blob store
and the metadata unchanged; and a second call on the same id returns `false`
and changes nothing. -/
theorem C4_delete_file_idempotent (files : List FileMetadata) (blobs : Blobs)
    (fid : String) :
    ((delete_file files blobs fid).2.2 = true ↔ ∃ f ∈ files, f.id = fid) ∧
    (files.find? (fun f => f.id == fid) = none →
      delete_file files blobs fid = (files, blobs, false)) ∧
    delete_file (delete_file files blobs fid).1 (delete_file files blobs fid).2.1 fid
      = ((delete_file files blobs fid).1, (delete_file files blobs fid).2.1, false) := by
  cases hf : files.find? (fun f => f.id == fid) with
  | none =>
    have hres : delete_file files blobs fid = (files, blobs, false) := by
      simp only [delete_file, hf]
    refine ⟨?_, fun _ => hres, ?_⟩
    · rw [hres]
      simp only
      constructor
      · intro h
        exact absurd h (by simp)
      · rintro ⟨f, hmem, hfid⟩
        have hnone := List.find?_eq_none.mp hf f hmem
        exact absurd (by simp [hfid]) hnone
    · rw [hres]
      simp only [delete_file, hf]
  | some meta =>
    have hdec : decide (0 < files.countP (fun f => f.id == fid)) = true := by
      simpa using countP_pos_of_find? hf
    have hres : delete_file files blobs fid =
        (files.filter (fun f => !(f.id == fid)),
         if hasBlob blobs meta.storage_path then removeBlob blobs meta.storage_path
           else blobs,
         true) := by
      simp only [delete_file, hf, hdec]
    refine ⟨?_, ?_, ?_⟩
    · rw [hres]
      simp only
      constructor
      · intro _
        refine ⟨meta, List.mem_of_find?_eq_some hf, ?_⟩
        simpa using List.find?_some hf
      · intro _
        trivial
    · intro h
      exact Option.noConfusion h
    · rw [hres]
      simp only [delete_file, find?_filter_not]

/-- Witness for C4 at a concrete absent id: the call reports `false` and
leaves the state untouched. -/
theorem C4_witness :
    (([sampleFile] : List FileMetadata).find? (fun f => f.id == "zz") = none) ∧
    delete_file [sampleFile] [] "zz" = ([sampleFile], [], false) :=
  ⟨by decide, (C4_delete_file_idempotent [sampleFile] [] "zz").2.1 (by decide)⟩

/-- C5: when the row exists but no blob is present at its `storage_path`,
`delete_file` skips the filesystem call (so no storage error can surface),
still deletes the row, and returns `true`; the blob store is unchanged. -/
theorem C5_missing_blob_tolerated {files : List FileMetadata} {blobs : Blobs}
    {fid : String} {meta : FileMetadata}
    (hmem : files.find? (fun f => f.id == fid) = some meta)
    (hnoblob : hasBlob blobs meta.storage_path = false) :
    delete_file files blobs fid =
      (files.filter (fun f => !(f.id == fid)), blobs, true) := by
  have hdec : decide (0 < files.countP (fun f => f.id == fid)) = true := by
    simpa using countP_pos_of_find? hmem
  simp only [delete_file, hmem, hdec, hnoblob]
  simp

/-- Witness for C5: a concrete row whose blob is absent is still deleted
with result `true`. -/
theorem C5_witness :
    delete_file [sampleFile] [] "f0" =
      (([sampleFile] : List FileMetadata).filter (fun f => !(f.id == "f0")),
        ([] : Blobs), true) :=
  @C5_missing_blob_tolerated [sampleFile] [] "f0" sampleFile (by decide) (by decide)

/-- C6: `get_directory_stats` returns the pair (number of direct child file
rows, sum of their sizes) — only rows whose `parent_directory_id` equals the
directory id are counted, so files in descendant directories are excluded —
with total 0 when no such rows exist, and it agrees with the count and sum
over `list_files` of the same directory. -/
theorem C6_directory_stats_shallow (files : List FileMetadata) (d : String) :
    get_directory_stats files d =
      (((files.filter (fun f => f.parent_directory_id == some d)).length : Int),
       ((files.filter (fun f => f.parent_directory_id == some d)).map
          (fun f => f.file_size)).sum) ∧
    get_directory_stats files d =
      (((list_files files (some d)).length : Int),
       ((list_files files (some d)).map (fun f => f.file_size)).sum) ∧
    (files.filter (fun f => f.parent_directory_id == some d) = [] →
      (get_directory_stats files d).2 = 0) := by
  have h1 : get_directory_stats files d =
      (((files.filter (fun f => f.parent_directory_id == some d)).length : Int),
       ((files.filter (fun f => f.parent_directory_id == some d)).map
          (fun f => f.file_size)).sum) := by
    unfold get_directory_stats
    cases hm : files.filter (fun f => f.parent_directory_id == some d) with
    | nil => simp
    | cons a tl => simp
  have hperm := sortByUploadedDesc_perm
    (files.filter (fun f => f.parent_directory_id == some d))
  have hlen : (list_files files (some d)).length =
      (files.filter (fun f => f.parent_directory_id == some d)).length :=
    hperm.length_eq
  have hsum : ((list_files files (some d)).map (fun f => f.file_size)).sum =
      ((files.filter (fun f => f.parent_directory_id == some d)).map
        (fun f => f.file_size)).sum :=
    (hperm.map (fun f => f.file_size)).sum_eq
  refine ⟨h1, ?_, ?_⟩
  · rw [h1, hlen, hsum]
  · intro h
    rw [h1, h]
    simp

/-- Witness for C6 at a state where the directory has no direct children:
the reported total size is 0. -/
theorem C6_witness :
    (([sampleFile] : List FileMetadata).filter
      (fun f => f.parent_directory_id == some "dX") = []) ∧
    (get_directory_stats [sampleFile] "dX").2 = 0 :=
  ⟨by decide, (C6_directory_stats_shallow [sampleFile] "dX").2.2 (by decide)⟩

/-- C7: after a successful `save_file` of bytes `content` (the empty
sequence included), the blob store holds exactly `content` at the returned
record's `storage_path`, and the record's `file_size` is the byte length of
`content`. -/
theorem C7_content_roundtrip {files : List FileMetadata} {blobs : Blobs}
    {upload_dir file_id now filename : String} {content : List Nat}
    {mt ds pd : Option String} {blobs' : Blobs} {files' : List FileMetadata}
    {m : FileMetadata}
    (hok : save_file files blobs upload_dir file_id now filename content mt ds pd
      = (blobs', Except.ok (files', m))) :
    getBlob blobs' m.storage_path = some content ∧
    m.file_size = (content.length : Int) := by
  obtain ⟨hm, hb, hf⟩ := save_file_ok hok
  subst hm
  constructor
  · rw [hb]
    exact getBlob_setBlob blobs _ content
  · rfl

/-- Witness for C7 at a concrete empty upload: the stored blob is the empty
byte sequence and `file_size` is 0. -/
theorem C7_witness :
    getBlob [("up/id2", [])] mNote.storage_path = some ([] : List Nat) ∧
    mNote.file_size = ((([] : List Nat)).length : Int) :=
  @C7_content_roundtrip [] [] "up" "id2" "t" "note" [] none none none
    [("up/id2", [])] [mNote] mNote (by rfl)

/-- C9: neither `save_file` nor `move_file` consults the directories table:
for any `parent_directory_id` — in particular one that names no existing
directory — the operation succeeds and the stored record carries the value
as-is. -/
theorem C9_dangling_parent_accepted
    (dirs : List Directory) (files : List FileMetadata) (blobs : Blobs)
    (upload_dir file_id now filename : String) (content : List Nat)
    (mt ds : Option String) (p : Option String) (mfid : String) (mf : FileMetadata)
    (_hdangling : ∀ d ∈ dirs, some d.id ≠ p)
    (hfresh : ∀ f ∈ files, f.id ≠ file_id)
    (hmem : get_file_metadata files mfid = some mf) :
    (save_file files blobs upload_dir file_id now filename content mt ds p).2
        = Except.ok
            (files ++ [savedMetadata upload_dir file_id now filename content mt ds p],
             savedMetadata upload_dir file_id now filename content mt ds p) ∧
    (savedMetadata upload_dir file_id now filename content mt ds p).parent_directory_id
        = p ∧
    (move_file files mfid p).2 = some { mf with parent_directory_id := p } ∧
    ({ mf with parent_directory_id := p } : FileMetadata).parent_directory_id = p := by
  refine ⟨?_, rfl, ?_, rfl⟩
  · rw [save_file_accepts_fresh hfresh]
  · rw [move_file_found hmem]

/-- Witness for C9: a parent id (`ghost`) that names no directory of the
concrete table `dirsW` is accepted and stored by both operations. -/
theorem C9_witness :
    (save_file [sampleFile] [] "up" "f9" "t" "x" [1] none none (some "ghost")).2
        = Except.ok
            ([sampleFile] ++ [savedMetadata "up" "f9" "t" "x" [1] none none (some "ghost")],
             savedMetadata "up" "f9" "t" "x" [1] none none (some "ghost")) ∧
    (savedMetadata "up" "f9" "t" "x" [1] none none (some "ghost")).parent_directory_id
        = some "ghost" ∧
    (move_file [sampleFile] "f0" (some "ghost")).2
        = some { sampleFile with parent_directory_id := some "ghost" } ∧
    ({ sampleFile with parent_directory_id := some "ghost" } : FileMetadata).parent_directory_id
        = some "ghost" :=
  C9_dangling_parent_accepted dirsW [sampleFile] [] "up" "f9" "t" "x" [1] none none
    (some "ghost") "f0" sampleFile (by decide) (by decide) (by decide)

/-- C10: `move_file` on an existing file changes only `parent_directory_id`:
the resulting table is the old one with exactly that field updated on the
rows of this id, and the returned record is the old record with only that
field replaced — so id, filename, original_filename, file_size, mime_type,
storage_path, uploaded_at and description are unchanged and, unlike
`move_directory`, no timestamp is advanced. -/
theorem C10_move_file_frame {files : List FileMetadata} {fid : String}
    {t : Option String} {f : FileMetadata}
    (hmem : get_file_metadata files fid = some f) :
    move_file files fid t =
      (files.map (fun g =>
        if g.id == fid then { g with parent_directory_id := t } else g),
       some { f with parent_directory_id := t }) :=
  move_file_found hmem

/-- Witness for C10 at a concrete move of `sampleFile` into directory `d9`. -/
theorem C10_witness :
    move_file [sampleFile] "f0" (some "d9") =
      (([sampleFile] : List FileMetadata).map (fun g =>
        if g.id == "f0" then { g with parent_directory_id := some "d9" } else g),
       some { sampleFile with parent_directory_id := some "d9" }) :=
  @C10_move_file_frame [sampleFile] "f0" (some "d9") sampleFile (by decide)

/-- C3: for an existing directory `d` and a target `t` that equals `d.id` or
from which the upward walk along `parent_id` reaches `d.id`,
`move_directory` fails with the corresponding invalid-move error and returns
the directories table unchanged — in particular the parent and timestamp of
`d` are untouched (`move_directory` never touches the `files` table, which
its model does not even take). -/
theorem C3_invalid_move_rejected (dirs : List Directory) (d : Directory)
    (t now : String) (_hd : getDirectory dirs d.id = some d)
    (ht : t = d.id ∨ ReachesUp dirs t d.id) :
    move_directory dirs d.id (some t) now =
      some (dirs, Except.error
        (if t = d.id then "Cannot move a directory into itself"
         else "Cannot move a directory into one of its own subdirectories")) := by
  have hck0 : moveCheck dirs d.id (some t) =
      (if t = d.id then some (some "Cannot move a directory into itself")
       else
         match isAncestorOfFuel dirs d.id t (dirs.length + 1) with
         | none => none
         | some true => some (some "Cannot move a directory into one of its own subdirectories")
         | some false => some none) := rfl
  by_cases hself : t = d.id
  · have hck : moveCheck dirs d.id (some t) =
        some (some "Cannot move a directory into itself") := by
      rw [hck0, if_pos hself]
    have hmv : move_directory dirs d.id (some t) now =
        some (dirs, Except.error "Cannot move a directory into itself") := by
      simp only [move_directory, hck]
    rw [hmv, if_pos hself]
  · cases ht with
    | inl h => exact absurd h hself
    | inr hreach =>
      obtain ⟨n, hn1, hchain⟩ := hreach
      obtain ⟨m, hm1, hmlen, hmchain⟩ := firstHit_le_length hn1 hchain
      have htrue := walk_true_of_chain m t (dirs.length + 1) hmchain hm1 (by omega)
      have hck : moveCheck dirs d.id (some t) =
          some (some "Cannot move a directory into one of its own subdirectories") := by
        rw [hck0, if_neg hself, htrue]
      have hmv : move_directory dirs d.id (some t) now =
          some (dirs,
            Except.error "Cannot move a directory into one of its own subdirectories") := by
        simp only [move_directory, hck]
      rw [hmv, if_neg hself]

/-- Witness for C3: moving root `a` of the concrete forest `dirsW` under its
own child `b` is rejected and `dirsW` is returned unchanged. -/
theorem C3_witness :
    move_directory dirsW "a" (some "b") "t9" =
      some (dirsW, Except.error
        (if "b" = "a" then "Cannot move a directory into itself"
         else "Cannot move a directory into one of its own subdirectories")) :=
  C3_invalid_move_rejected dirsW rootDir "b" "t9" (by decide)
    (Or.inr ⟨1, by decide, by decide⟩)

/-- C8, counterexample: in the corrupt two-directory cycle `cycDirs`
(`a → b → a`) the ancestor walk for an id not on the cycle has not returned
after `cycDirs.length` lookups — nor after many more — refuting termination
"taking at most as many steps as there are directories". (The helper
`cycDirs_walk_diverges` shows it never returns at any fuel.) -/
theorem C8_counterexample :
    isAncestorOfFuel cycDirs "c" "a" cycDirs.length = none ∧
    isAncestorOfFuel cycDirs "c" "a" (cycDirs.length + 40) = none :=
  ⟨cycDirs_walk_diverges 2 "a" (Or.inl rfl), cycDirs_walk_diverges 42 "a" (Or.inl rfl)⟩

/-- C8, amended: when the directories parent relation is acyclic (the
invariant the walk relies on), the upward walk of `move_directory`
terminates within `dirs.length + 1` lookups, for every pair of ids; a
corrupt (cyclic) chain can instead make the unbounded loop diverge, as the
counterexample shows. -/
theorem C8_walk_terminates (dirs : List Directory) (anc s : String)
    (hac : Acyclic dirs) :
    (isAncestorOfFuel dirs anc s (dirs.length + 1)).isSome = true := by
  obtain ⟨b, hb⟩ := @walk_terminates_of_acyclic dirs anc s hac
  rw [hb]
  rfl

/-- Witness for C8 on the concrete acyclic forest `dirsW`. -/
theorem C8_witness :
    (isAncestorOfFuel dirsW "x" "b" (dirsW.length + 1)).isSome = true :=
  C8_walk_terminates dirsW "x" "b" acyclic_dirsW

/-- C1: starting from any state whose directories parent relation is acyclic,
every sequence of core operations — `create_directory` with a fresh id,
`move_directory` whether it succeeds or fails, and `delete_directory`; file
operations never touch the directory table and are identities on it — leaves
the parent relation acyclic. -/
theorem C1_acyclicity_invariant (dirs dirs' : List Directory)
    (hac : Acyclic dirs) (hsteps : Relation.ReflTransGen DirStep dirs dirs') :
    Acyclic dirs' := by
  induction hsteps with
  | refl => exact hac
  | tail _ hstep ih => exact dirStep_preserves_acyclic hstep ih

/-- Witness for C1: one concrete successful `move_directory` step from the
concrete forest `dirsW` keeps the table acyclic. -/
theorem C1_witness : Acyclic [rootDir, dirBmoved] :=
  C1_acyclicity_invariant dirsW [rootDir, dirBmoved] acyclic_dirsW
    (Relation.ReflTransGen.single
      (DirStep.move dirsW "b" none "t2" [rootDir, dirBmoved]
        (Except.ok (some dirBmoved)) (by rfl)))

end Filshare
